import Mathlib

/-!
Formal model of the PII span pipeline in `frontend/components/shield-chat.tsx`:
the local fallback detector `detectPII` (regex catalog scan), the reconciler
`convertBackendResponseToMatches` with its helpers `normalizeEntityType` and
`inferEntityType`, the segmenter inside `RedactedText`, and the audit branch of
`handleSanitize`.  Strings are modelled as `List Char` (all inputs of interest
are ASCII, so JS UTF-16 code-unit offsets coincide with character offsets).
-/

namespace ShieldChat

/-- The `PIIMatch` interface (`end` is a Lean keyword, so the exclusive end
offset is named `endPos`). -/
structure PIIMatch where
  type : List Char
  original : List Char
  replacement : List Char
  start : Nat
  endPos : Nat
  deriving DecidableEq, Repr

/-- Offset of the leftmost occurrence of `needle` in `hay`, as in JS
`String.prototype.indexOf` (searching from offset 0); the empty needle occurs
at offset 0. -/
def firstOcc (needle : List Char) : List Char → Option Nat
  | [] => if needle.isEmpty then some 0 else none
  | c :: t =>
    if needle.isPrefixOf (c :: t) then some 0
    else (firstOcc needle t).map (· + 1)

/-- JS `hay.indexOf(needle, start)` for `start ≤ hay.length`. -/
def indexOfFrom (hay needle : List Char) (start : Nat) : Option Nat :=
  (firstOcc needle (hay.drop start)).map (· + start)

/-- JS `text.slice(a, b)` for `0 ≤ a ≤ b`: the characters of `[a, b)`. -/
def slice (l : List Char) (a b : Nat) : List Char :=
  (l.take b).drop a

/-- JS `s.replace(pat, rep)` with a plain-string pattern: replace the first
occurrence only (the replacement strings used here contain no `$` patterns). -/
def replaceFirst (s pat rep : List Char) : List Char :=
  match firstOcc pat s with
  | none => s
  | some i => s.take i ++ rep ++ s.drop (i + pat.length)

/-- `normalizeEntityType` from `convertBackendResponseToMatches`: the chained
`.replace` calls, in source order. -/
def normalizeEntityType (entityType : List Char) : List Char :=
  replaceFirst (replaceFirst (replaceFirst (replaceFirst (replaceFirst (replaceFirst (replaceFirst
    entityType
    ("EMAIL_ADDRESS".toList) ("EMAIL".toList))
    ("PHONE_NUMBER".toList) ("PHONE".toList))
    ("US_SSN".toList) ("SSN".toList))
    ("IP_ADDRESS".toList) ("IP".toList))
    ("_ADDRESS".toList) [])
    ("_NUMBER".toList) [])
    ("US_".toList) []

/-! Character classes used by the source's regular expressions.  JS `\w` is
`[A-Za-z0-9_]`, `\d` is `[0-9]`, `\s` is whitespace (modelled by the ASCII
whitespace characters plus NBSP, the cases a JS engine recognises that can
occur in these inputs). -/

def isWordChar (c : Char) : Bool := c.isAlphanum || c == '_'

def isJsSpace (c : Char) : Bool :=
  c == ' ' || c == '\t' || c == '\n' || c == '\r' || c == '\x0b' || c == '\x0c' || c == '\u00A0'

def isUpperAZ (c : Char) : Bool := c.isUpper

def isLowerAZ (c : Char) : Bool := c.isLower

def isAsciiAlpha (c : Char) : Bool := c.isUpper || c.isLower

/-- `[A-Z_]`, the tag-content class. -/
def isTagChar (c : Char) : Bool := c.isUpper || c == '_'

/-- `[-\s]` (credit-card separator). -/
def dashSpace (c : Char) : Bool := c == '-' || isJsSpace c

/-- `[-.\s]` (phone separator in the detector pattern). -/
def phoneSep (c : Char) : Bool := c == '-' || c == '.' || isJsSpace c

/-- `[\d\s\-\(\)]` (phone class in `inferEntityType`). -/
def phoneInferChar (c : Char) : Bool :=
  c.isDigit || isJsSpace c || c == '-' || c == '(' || c == ')'

/-- `[A-Za-z0-9._%+-]` (email local part). -/
def emailLocalChar (c : Char) : Bool :=
  isAsciiAlpha c || c.isDigit || c == '.' || c == '_' || c == '%' || c == '+' || c == '-'

/-- `[A-Za-z0-9.-]` (email domain). -/
def emailDomainChar (c : Char) : Bool :=
  isAsciiAlpha c || c.isDigit || c == '.' || c == '-'

/-- `[A-Z|a-z]` (email TLD class; the source's class literally contains `|`). -/
def emailTldChar (c : Char) : Bool := c.isUpper || c == '|' || c.isLower

/-- `[0-9A-Z]` (AWS key body). -/
def upperDigitChar (c : Char) : Bool := c.isDigit || c.isUpper

/-- `[a-zA-Z0-9]` (API key body). -/
def alnumChar (c : Char) : Bool := isAsciiAlpha c || c.isDigit

/-- JS `\b`: a word/non-word transition (string ends count as non-word). -/
def wordBoundary (t : List Char) (i : Nat) : Bool :=
  let before : Bool :=
    match i with
    | 0 => false
    | j + 1 => match t.get? j with | some c => isWordChar c | none => false
  let after : Bool :=
    match t.get? i with | some c => isWordChar c | none => false
  before != after

/-- Length of the maximal run of `p`-characters starting at offset `i`. -/
def runLen (p : Char → Bool) (t : List Char) (i : Nat) : Nat :=
  ((t.drop i).takeWhile p).length

/-- Syntax of the regular-expression fragment the source uses: character
classes, literals, sequencing, greedy `?`, `\b`, and greedy class repetitions
`p{n}`, `p{n,}`, `p{n,m}`.  (None of the source's patterns repeat a
compound expression.) -/
inductive RE where
  | cls (p : Char → Bool)
  | lit (s : List Char)
  | seq (a b : RE)
  | opt (a : RE)
  | wb
  | reps (p : Char → Bool) (n : Nat)
  | repGe (p : Char → Bool) (n : Nat)
  | repRange (p : Char → Bool) (n m : Nat)

/-- Backtracking semantics: all end offsets reachable by matching `re` at
offset `i`, in the engine's priority order (greedy alternatives first).  A JS
engine takes the head; an anchored test succeeds iff the target offset is in
the list. -/
def reRun : RE → List Char → Nat → List Nat
  | .cls p, t, i =>
      match t.get? i with
      | some c => if p c then [i + 1] else []
      | none => []
  | .lit s, t, i => if s.isPrefixOf (t.drop i) then [i + s.length] else []
  | .seq a b, t, i => (reRun a t i).flatMap (fun j => reRun b t j)
  | .opt a, t, i => reRun a t i ++ [i]
  | .wb, t, i => if wordBoundary t i then [i] else []
  | .reps p n, t, i => if n ≤ runLen p t i then [i + n] else []
  | .repGe p n, t, i =>
      let m := runLen p t i
      if n ≤ m then (List.range (m - n + 1)).map (fun k => i + m - k) else []
  | .repRange p n mx, t, i =>
      let m := min (runLen p t i) mx
      if n ≤ m then (List.range (m - n + 1)).map (fun k => i + m - k) else []

/-- Minimal number of characters any match of `re` consumes. -/
def minLen : RE → Nat
  | .cls _ => 1
  | .lit s => s.length
  | .seq a b => minLen a + minLen b
  | .opt _ => 0
  | .wb => 0
  | .reps _ n => n
  | .repGe _ n => n
  | .repRange _ n _ => n

/-- Sequence a list of fragments (`.lit []` is the empty regex). -/
def reSeq (l : List RE) : RE := l.foldr RE.seq (.lit [])

/-- `/\b\d{4}[-\s]?\d{4}[-\s]?\d{4}[-\s]?\d{4}\b/` (CREDIT_CARD). -/
def ccDetectRE : RE := reSeq
  [.wb, .reps Char.isDigit 4, .opt (.cls dashSpace), .reps Char.isDigit 4,
   .opt (.cls dashSpace), .reps Char.isDigit 4, .opt (.cls dashSpace),
   .reps Char.isDigit 4, .wb]

/-- `/\b\d{3}[-]?\d{2}[-]?\d{4}\b/` (SSN). -/
def ssnDetectRE : RE := reSeq
  [.wb, .reps Char.isDigit 3, .opt (.cls (· == '-')), .reps Char.isDigit 2,
   .opt (.cls (· == '-')), .reps Char.isDigit 4, .wb]

/-- `/\b[A-Za-z0-9._%+-]+@[A-Za-z0-9.-]+\.[A-Z|a-z]{2,}\b/` (EMAIL). -/
def emailDetectRE : RE := reSeq
  [.wb, .repGe emailLocalChar 1, .lit ['@'], .repGe emailDomainChar 1,
   .lit ['.'], .repGe emailTldChar 2, .wb]

/-- `/\b(\+?1[-.\s]?)?\(?\d{3}\)?[-.\s]?\d{3}[-.\s]?\d{4}\b/` (PHONE). -/
def phoneDetectRE : RE := reSeq
  [.wb, .opt (reSeq [.opt (.lit ['+']), .lit ['1'], .opt (.cls phoneSep)]),
   .opt (.cls (· == '(')), .reps Char.isDigit 3, .opt (.cls (· == ')')),
   .opt (.cls phoneSep), .reps Char.isDigit 3, .opt (.cls phoneSep),
   .reps Char.isDigit 4, .wb]

/-- `/\b(AKIA[0-9A-Z]{16})\b/` (AWS_KEY). -/
def awsKeyDetectRE : RE := reSeq
  [.wb, .lit ("AKIA".toList), .reps upperDigitChar 16, .wb]

/-- `/\b(sk-[a-zA-Z0-9]{32,})\b/` (API_KEY). -/
def apiKeyDetectRE : RE := reSeq
  [.wb, .lit ("sk-".toList), .repGe alnumChar 32, .wb]

/-- `/\b\d{1,3}\.\d{1,3}\.\d{1,3}\.\d{1,3}\b/` (IP_ADDRESS). -/
def ipDetectRE : RE := reSeq
  [.wb, .repRange Char.isDigit 1 3, .lit ['.'], .repRange Char.isDigit 1 3,
   .lit ['.'], .repRange Char.isDigit 1 3, .lit ['.'], .repRange Char.isDigit 1 3, .wb]

/-- `PII_PATTERNS`: (type, compiled pattern, replacement), in source order. -/
def PII_PATTERNS : List (List Char × RE × List Char) :=
  [(("CREDIT_CARD".toList), ccDetectRE, ("[REDACTED_CC]".toList)),
   (("SSN".toList), ssnDetectRE, ("[REDACTED_SSN]".toList)),
   (("EMAIL".toList), emailDetectRE, ("[REDACTED_EMAIL]".toList)),
   (("PHONE".toList), phoneDetectRE, ("[REDACTED_PHONE]".toList)),
   (("AWS_KEY".toList), awsKeyDetectRE, ("[REDACTED_AWS_KEY]".toList)),
   (("API_KEY".toList), apiKeyDetectRE, ("[REDACTED_API_KEY]".toList)),
   (("IP_ADDRESS".toList), ipDetectRE, ("[REDACTED_IP]".toList))]

/-- First match of `re` at an offset `≥ pos`: the `regex.exec` search.  The
first argument counts the positions still to try (`t.length + 1 - pos` at the
call site), making the search structurally recursive. -/
def findMatchAux (re : RE) (t : List Char) : Nat → Nat → Option (Nat × Nat)
  | 0, _ => none
  | b + 1, pos =>
    match (reRun re t pos).head? with
    | some j => some (pos, j)
    | none => findMatchAux re t b (pos + 1)

def findMatch (re : RE) (t : List Char) (pos : Nat) : Option (Nat × Nat) :=
  findMatchAux re t (t.length + 1 - pos) pos

/-- The `while ((match = regex.exec(text)) !== null)` loop: collect matches
left to right, resuming each search at the previous match's end (`lastIndex`).
The budget `t.length + 1` suffices because every pattern in the catalog
consumes at least one character per match. -/
def execAllAux (re : RE) (t : List Char) : Nat → Nat → List (Nat × Nat)
  | 0, _ => []
  | b + 1, cursor =>
    match findMatch re t cursor with
    | none => []
    | some (i, j) => (i, j) :: execAllAux re t b j

def execAll (re : RE) (t : List Char) : List (Nat × Nat) :=
  execAllAux re t (t.length + 1) 0

/-- Insert by `start`, keeping earlier elements first among equal starts
(the stable behaviour of JS `Array.prototype.sort` with
`(a, b) => a.start - b.start`). -/
def insertByStart (x : PIIMatch) : List PIIMatch → List PIIMatch
  | [] => [x]
  | y :: ys => if x.start < y.start then x :: y :: ys else y :: insertByStart x ys

/-- Stable sort by `start` ascending. -/
def sortByStart : List PIIMatch → List PIIMatch
  | [] => []
  | x :: xs => insertByStart x (sortByStart xs)

/-- `detectPII`: run every catalog pattern over the text independently and sort
all matches by `start`.  `original` is the matched substring, `replacement`
the pattern's replacement label. -/
def detectPII (text : List Char) : List PIIMatch :=
  sortByStart (PII_PATTERNS.flatMap (fun pat =>
    (execAll pat.2.1 text).map (fun ij =>
      ⟨pat.1, slice text ij.1 ij.2, pat.2.2, ij.1, ij.2⟩)))

/-! The shape tests of `inferEntityType` are anchored (`^ … $`) regexes; an
anchored test succeeds iff the full length is a reachable end offset. -/

def fullTest (re : RE) (s : List Char) : Bool :=
  (reRun re s 0).any (fun j => j == s.length)

/-- `/^\d{3}-?\d{2}-?\d{4}$/`. -/
def ssnShapeRE : RE := reSeq
  [.reps Char.isDigit 3, .opt (.cls (· == '-')), .reps Char.isDigit 2,
   .opt (.cls (· == '-')), .reps Char.isDigit 4]

/-- `/^\d{4}[-\s]?\d{4}[-\s]?\d{4}[-\s]?\d{4}$/`. -/
def ccShapeRE : RE := reSeq
  [.reps Char.isDigit 4, .opt (.cls dashSpace), .reps Char.isDigit 4,
   .opt (.cls dashSpace), .reps Char.isDigit 4, .opt (.cls dashSpace),
   .reps Char.isDigit 4]

/-- `/^\+?[\d\s\-\(\)]{10,}$/`. -/
def phoneShapeRE : RE := reSeq [.opt (.lit ['+']), .repGe phoneInferChar 10]

/-- `/^\d{1,3}\.\d{1,3}\.\d{1,3}\.\d{1,3}$/`. -/
def ipShapeRE : RE := reSeq
  [.repRange Char.isDigit 1 3, .lit ['.'], .repRange Char.isDigit 1 3,
   .lit ['.'], .repRange Char.isDigit 1 3, .lit ['.'], .repRange Char.isDigit 1 3]

/-- `inferEntityType`: the fixed priority chain of shape predicates
(`original.match(/^(sk-|ghp_|AKIA)/)` is a prefix test). -/
def inferEntityType (original : List Char) : List Char :=
  if original.contains '@' then ("EMAIL".toList)
  else if fullTest ssnShapeRE original then ("SSN".toList)
  else if fullTest ccShapeRE original then ("CREDIT_CARD".toList)
  else if fullTest phoneShapeRE original then ("PHONE".toList)
  else if ("sk-".toList).isPrefixOf original || ("ghp_".toList).isPrefixOf original
          || ("AKIA".toList).isPrefixOf original then ("API_KEY".toList)
  else if fullTest ipShapeRE original then ("IP".toList)
  else ("PERSON".toList)

/-- `/^<[A-Z_]+>$/`: a bracketed tag. -/
def isTagShape (s : List Char) : Bool :=
  s.head? == some '<' && s.getLast? == some '>' && decide (3 ≤ s.length)
    && ((s.drop 1).dropLast.all isTagChar)

/-- `/^[A-Z_]+ \d+$/`: a numbered label ("LABEL N").  `[A-Z_]+` is greedy and
a space is outside the class, so the word part is the maximal tag-char run. -/
def isNumberedShape (s : List Char) : Bool :=
  let w := s.takeWhile isTagChar
  !w.isEmpty &&
    (match s.drop w.length with
     | ' ' :: ds => !ds.isEmpty && ds.all Char.isDigit
     | _ => false)

/-- The entity-type classification of one Mode-A occurrence: bracketed tag,
then numbered label (`replacement.split(" ")[0]` is the prefix before the
first space), then the fallback classifier on the original value. -/
def classifyReplacement (original replacement : List Char) : List Char :=
  if isTagShape replacement then normalizeEntityType ((replacement.drop 1).dropLast)
  else if isNumberedShape replacement then
    normalizeEntityType (replacement.takeWhile (fun c => c != ' '))
  else inferEntityType original

/-- The mutable state of the Mode-A scan: the cursor `searchIndex`, the
`processedPositions` set (a `(start, end)` pair models the `start-end` key
string, an injective encoding), and the `matches` accumulated so far. -/
structure ScanSt where
  searchIndex : Nat
  processed : List (Nat × Nat)
  acc : List PIIMatch
  deriving Repr

/-- One iteration of the Mode-A `while (searchIndex < cleanText.length)` loop
for the map entry `(original, replacement)`; `none` when the loop exits
(cursor at end, or no further occurrence). -/
def scanStep (clean original replacement : List Char) (s : ScanSt) : Option ScanSt :=
  if s.searchIndex < clean.length then
    match indexOfFrom clean replacement s.searchIndex with
    | none => none
    | some index =>
      let key : Nat × Nat := (index, index + replacement.length)
      if key ∈ s.processed then some { s with searchIndex := index + 1 }
      else some
        { searchIndex := index + replacement.length,
          processed := key :: s.processed,
          acc := s.acc ++
            [⟨classifyReplacement original replacement, original, replacement,
              index, index + replacement.length⟩] }
  else none

/-- Iterate `scanStep` until the loop exits (or the fuel runs out; the fuel
`2 * clean.length + 2` used below is proved sufficient). -/
def scanLoop (clean original replacement : List Char) : Nat → ScanSt → ScanSt
  | 0, s => s
  | fuel + 1, s =>
    match scanStep clean original replacement s with
    | none => s
    | some s' => scanLoop clean original replacement fuel s'

/-- Mode B's `/<([A-Z_]+)>/g` at one offset: the captured label, if a
bracketed tag starts exactly at `i`. -/
def tryTag (t : List Char) (i : Nat) : Option (List Char) :=
  match t.drop i with
  | '<' :: rest =>
    let lab := rest.takeWhile isTagChar
    if !lab.isEmpty && (rest.drop lab.length).head? == some '>' then some lab
    else none
  | _ => none

/-- The Mode-B `tagPattern.exec` loop: leftmost matches, resuming after each
match's end.  The budget (first argument) is `t.length + 1` at the call site;
the scan offset strictly increases at every step. -/
def tagScanAux (t : List Char) : Nat → Nat → List (Nat × List Char)
  | 0, _ => []
  | b + 1, i =>
    if i < t.length then
      match tryTag t i with
      | some lab => (i, lab) :: tagScanAux t b (i + lab.length + 2)
      | none => tagScanAux t b (i + 1)
    else []

def tagScan (t : List Char) : List (Nat × List Char) :=
  tagScanAux t (t.length + 1) 0

/-- The final `.filter` of `convertBackendResponseToMatches`: drop an element
iff its `(start, end)` equals the previous element's (previous in the sorted
array, whether or not that one was kept). -/
def dedupAdjAux (prev : PIIMatch) : List PIIMatch → List PIIMatch
  | [] => []
  | y :: ys =>
    if y.start == prev.start && y.endPos == prev.endPos then dedupAdjAux y ys
    else y :: dedupAdjAux y ys

def dedupAdj : List PIIMatch → List PIIMatch
  | [] => []
  | x :: xs => x :: dedupAdjAux x xs

/-- `convertBackendResponseToMatches`.  The substitution map is an association
list in `Object.entries` order; an absent map is the empty list (both select
Mode B, exactly as `syntheticMap && Object.keys(syntheticMap).length > 0`
does).  `originalText` and `items` are parameters of the source function that
its body never reads. -/
def convertBackendResponseToMatches (originalText cleanText : List Char)
    (items : List (List Char)) (syntheticMap : List (List Char × List Char)) :
    List PIIMatch :=
  let raw : List PIIMatch :=
    if !syntheticMap.isEmpty then
      (syntheticMap.foldl
        (fun st p =>
          scanLoop cleanText p.1 p.2 (2 * cleanText.length + 2)
            { st with searchIndex := 0 })
        ⟨0, [], []⟩).acc
    else
      (tagScan cleanText).map (fun p =>
        ⟨normalizeEntityType p.2, '[' :: (p.2 ++ [']']), '<' :: (p.2 ++ ['>']),
         p.1, p.1 + p.2.length + 2⟩)
  dedupAdj (sortByStart raw)

/-! The segmenter of `RedactedText`: alternate plain and redacted segments.
A redacted segment displays the match's `replacement`; the range of the text
it stands for (consumes) is the match's `[start, end)`. -/

inductive Segment where
  | plain (text : List Char)
  | redacted (m : PIIMatch)
  deriving DecidableEq, Repr

/-- The `matches.forEach` walk plus the trailing plain part. -/
def segmentsLoop (text : List Char) (lastIndex : Nat) : List PIIMatch → List Segment
  | [] =>
    if lastIndex < text.length then [.plain (slice text lastIndex text.length)]
    else []
  | m :: ms =>
    (if lastIndex < m.start then [Segment.plain (slice text lastIndex m.start)]
     else [])
      ++ Segment.redacted m :: segmentsLoop text m.endPos ms

/-- `RedactedText`'s segment computation: empty text renders a placeholder
(no segments), an empty match list renders the whole text plain, otherwise
the walk from offset 0. -/
def redactedTextSegments (text : List Char) (ms : List PIIMatch) : List Segment :=
  if text.isEmpty then []
  else if ms.isEmpty then [.plain text]
  else segmentsLoop text 0 ms

/-- The characters of `text` a segment consumes. -/
def consumedChars (text : List Char) : Segment → List Char
  | .plain s => s
  | .redacted m => slice text m.start m.endPos

/-- The Segmenter's precondition on its span list, from offset `lastIndex`:
sorted, pairwise non-overlapping, within the text's bounds. -/
def spansOK (text : List Char) : Nat → List PIIMatch → Bool
  | _, [] => true
  | lastIndex, m :: ms =>
    decide (lastIndex ≤ m.start) && decide (m.start ≤ m.endPos)
      && decide (m.endPos ≤ text.length) && spansOK text m.endPos ms

/-! Orchestration state of `ShieldChat` (`handleSanitize`'s audit branch). -/

inductive AuditStatus where
  | idle | running | passed | failed | rate_limited
  deriving DecidableEq, Repr

structure AuditResult where
  safetyScore : Nat
  usabilityScore : Nat
  critique : List Char
  deriving DecidableEq, Repr

/-- One history entry (the wall-clock `timestamp` is not modelled). -/
structure HistoryEntry where
  id : Nat
  input : List Char
  matchList : List PIIMatch
  deriving DecidableEq, Repr

/-- The React state of `ShieldChat` touched by `handleSanitize`. -/
structure ShieldChatState where
  input : List Char
  isScanning : Bool
  currentMatches : List PIIMatch
  sanitizedText : List Char
  history : List HistoryEntry
  apiError : Option (List Char)
  auditResult : Option AuditResult
  auditStatus : AuditStatus
  processingTime : Option Nat
  deriving Repr

def containsSub (hay needle : List Char) : Bool :=
  (firstOcc needle hay).isSome

/-- The rate-limit test of the audit `catch` block
(`msg.includes("429") || msg.includes("rate") || msg.includes("limit") ||
msg.includes("500")`). -/
def isRateLimitedMsg (msg : List Char) : Bool :=
  containsSub msg ("429".toList) || containsSub msg ("rate".toList)
    || containsSub msg ("limit".toList) || containsSub msg ("500".toList)

/-- The audit `catch` block of `handleSanitize`: set `auditStatus` from the
error message and clear `auditResult`; nothing else is touched. -/
def applyAuditFailure (msg : List Char) (s : ShieldChatState) : ShieldChatState :=
  { s with
    auditStatus := if isRateLimitedMsg msg then .rate_limited else .failed,
    auditResult := none }

/-! Basic facts about the string-search helpers. -/

theorem firstOcc_nil_needle (hay : List Char) : firstOcc [] hay = some 0 := by
  cases hay <;> simp [firstOcc, List.isPrefixOf]

theorem firstOcc_add_length_le {needle hay : List Char} {i : Nat}
    (h : firstOcc needle hay = some i) : i + needle.length ≤ hay.length := by
  induction hay generalizing i with
  | nil =>
    simp only [firstOcc] at h
    split at h
    · cases h
      simp_all [List.isEmpty_iff]
    · cases h
  | cons c t ih =>
    simp only [firstOcc] at h
    split at h
    · cases h
      have hp : needle <+: c :: t := by
        rwa [← List.isPrefixOf_iff_prefix]
      simpa using hp.length_le
    · obtain ⟨j, hj, rfl⟩ := Option.map_eq_some'.mp h
      have := ih hj
      simp only [List.length_cons]
      omega

theorem indexOfFrom_ge {hay needle : List Char} {start i : Nat}
    (h : indexOfFrom hay needle start = some i) : start ≤ i := by
  obtain ⟨j, _, rfl⟩ := Option.map_eq_some'.mp h
  omega

theorem indexOfFrom_add_length_le {hay needle : List Char} {start i : Nat}
    (h : indexOfFrom hay needle start = some i) (hs : start ≤ hay.length) :
    i + needle.length ≤ hay.length := by
  obtain ⟨j, hj, rfl⟩ := Option.map_eq_some'.mp h
  have := firstOcc_add_length_le hj
  simp only [List.length_drop] at this
  omega

theorem indexOfFrom_nil_needle (hay : List Char) (start : Nat) :
    indexOfFrom hay [] start = some start := by
  simp [indexOfFrom, firstOcc_nil_needle]

theorem indexOfFrom_lt {hay needle : List Char} {start i : Nat}
    (h : indexOfFrom hay needle start = some i) (hs : start < hay.length) :
    i < hay.length := by
  cases needle with
  | nil =>
    rw [indexOfFrom_nil_needle] at h
    cases h
    exact hs
  | cons c t =>
    have := indexOfFrom_add_length_le h (Nat.le_of_lt hs)
    simp only [List.length_cons] at this
    omega

/-! The stable sort by `start` and the adjacent-duplicate filter. -/

theorem insertByStart_perm (x : PIIMatch) (l : List PIIMatch) :
    List.Perm (insertByStart x l) (x :: l) := by
  induction l with
  | nil => rfl
  | cons y ys ih =>
    by_cases h : x.start < y.start
    · simp [insertByStart, h]
    · simp only [insertByStart, if_neg h]
      exact (ih.cons y).trans (List.Perm.swap x y ys)

theorem sortByStart_perm (l : List PIIMatch) : List.Perm (sortByStart l) l := by
  induction l with
  | nil => rfl
  | cons x xs ih =>
    exact (insertByStart_perm x (sortByStart xs)).trans (ih.cons x)

theorem insertByStart_pairwise {x : PIIMatch} {l : List PIIMatch}
    (h : l.Pairwise (fun a b => a.start ≤ b.start)) :
    (insertByStart x l).Pairwise (fun a b => a.start ≤ b.start) := by
  induction l with
  | nil => simp [insertByStart]
  | cons y ys ih =>
    rw [List.pairwise_cons] at h
    obtain ⟨hy, hys⟩ := h
    by_cases hlt : x.start < y.start
    · simp only [insertByStart, if_pos hlt]
      refine List.Pairwise.cons ?_ (List.Pairwise.cons hy hys)
      intro b hb
      rcases List.mem_cons.mp hb with rfl | hb
      · exact Nat.le_of_lt hlt
      · exact Nat.le_trans (Nat.le_of_lt hlt) (hy b hb)
    · simp only [insertByStart, if_neg hlt]
      refine List.Pairwise.cons ?_ (ih hys)
      intro b hb
      have hb' := (insertByStart_perm x ys).mem_iff.mp hb
      rcases List.mem_cons.mp hb' with rfl | hb'
      · exact Nat.le_of_not_lt hlt
      · exact hy b hb'

theorem sortByStart_pairwise (l : List PIIMatch) :
    (sortByStart l).Pairwise (fun a b => a.start ≤ b.start) := by
  induction l with
  | nil => simp [sortByStart]
  | cons x xs ih => exact insertByStart_pairwise ih

theorem dedupAdjAux_sublist (prev : PIIMatch) (l : List PIIMatch) :
    List.Sublist (dedupAdjAux prev l) l := by
  induction l generalizing prev with
  | nil => simp [dedupAdjAux]
  | cons y ys ih =>
    simp only [dedupAdjAux]
    split
    · exact (ih y).trans (List.sublist_cons_self y ys)
    · exact (ih y).cons₂ y

theorem dedupAdj_sublist (l : List PIIMatch) : List.Sublist (dedupAdj l) l := by
  cases l with
  | nil => simp [dedupAdj]
  | cons x xs => exact (dedupAdjAux_sublist x xs).cons₂ x

/-- Membership in the reconciler's output implies membership in the raw
(pre-sort, pre-filter) match list. -/
theorem mem_of_mem_dedup_sort {m : PIIMatch} {l : List PIIMatch}
    (h : m ∈ dedupAdj (sortByStart l)) : m ∈ l :=
  (sortByStart_perm l).mem_iff.mp ((dedupAdj_sublist (sortByStart l)).subset h)

/-! The matcher can only move forward: any reachable end offset is at least
the start offset plus the pattern's minimal length. -/

theorem reRun_minLen_le {re : RE} {t : List Char} {i j : Nat}
    (h : j ∈ reRun re t i) : i + minLen re ≤ j := by
  induction re generalizing i j with
  | cls p =>
    simp only [reRun] at h
    split at h
    · split at h
      · simp only [List.mem_singleton] at h
        simp [h, minLen]
      · cases h
    · cases h
  | lit s =>
    simp only [reRun] at h
    split at h
    · simp only [List.mem_singleton] at h
      simp [h, minLen]
    · cases h
  | seq a b iha ihb =>
    simp only [reRun, List.mem_flatMap] at h
    obtain ⟨k, hk, hj⟩ := h
    have h1 := iha hk
    have h2 := ihb hj
    simp only [minLen]
    omega
  | opt a iha =>
    simp only [reRun, List.mem_append, List.mem_singleton] at h
    rcases h with h | rfl
    · have := iha h
      simp only [minLen]
      omega
    · simp [minLen]
  | wb =>
    simp only [reRun] at h
    split at h
    · simp only [List.mem_singleton] at h
      simp [h, minLen]
    · cases h
  | reps p n =>
    simp only [reRun] at h
    split at h
    · simp only [List.mem_singleton] at h
      simp [h, minLen]
    · cases h
  | repGe p n =>
    simp only [reRun] at h
    split at h
    · simp only [List.mem_map, List.mem_range] at h
      obtain ⟨k, hk, rfl⟩ := h
      simp only [minLen]
      omega
    · cases h
  | repRange p n mx =>
    simp only [reRun] at h
    split at h
    · simp only [List.mem_map, List.mem_range] at h
      obtain ⟨k, hk, rfl⟩ := h
      simp only [minLen]
      omega
    · cases h

theorem findMatchAux_sound {re : RE} {t : List Char} {b pos i j : Nat}
    (h : findMatchAux re t b pos = some (i, j)) : j ∈ reRun re t i := by
  induction b generalizing pos with
  | zero => simp [findMatchAux] at h
  | succ b ih =>
    simp only [findMatchAux] at h
    cases hh : (reRun re t pos).head? with
    | some j0 =>
      rw [hh] at h
      cases h
      exact List.mem_of_mem_head? (hh ▸ rfl)
    | none =>
      rw [hh] at h
      exact ih h

theorem findMatch_sound {re : RE} {t : List Char} {pos i j : Nat}
    (h : findMatch re t pos = some (i, j)) : j ∈ reRun re t i :=
  findMatchAux_sound h

theorem execAllAux_sound {re : RE} {t : List Char} {b cur i j : Nat}
    (h : (i, j) ∈ execAllAux re t b cur) : j ∈ reRun re t i := by
  induction b generalizing cur with
  | zero => simp [execAllAux] at h
  | succ b ih =>
    simp only [execAllAux] at h
    cases hf : findMatch re t cur with
    | none => rw [hf] at h; cases h
    | some ij =>
      obtain ⟨i0, j0⟩ := ij
      rw [hf] at h
      simp only [List.mem_cons, Prod.mk.injEq] at h
      rcases h with ⟨rfl, rfl⟩ | h
      · exact findMatch_sound hf
      · exact ih h

theorem execAll_sound {re : RE} {t : List Char} {i j : Nat}
    (h : (i, j) ∈ execAll re t) : j ∈ reRun re t i :=
  execAllAux_sound h

/-- Every pattern of the catalog consumes at least one character per match. -/
theorem catalog_minLen_pos :
    ∀ pat ∈ PII_PATTERNS, 1 ≤ minLen pat.2.1 := by
  decide

/-! Analysis of the Mode-A scan loop. -/

/-- The match a Mode-A acceptance pushes. -/
def acceptedMatch (original replacement : List Char) (index : Nat) : PIIMatch :=
  ⟨classifyReplacement original replacement, original, replacement,
    index, index + replacement.length⟩

/-- Exhaustive description of a successful `scanStep`. -/
theorem scanStep_cases {clean original replacement : List Char} {s s' : ScanSt}
    (h : scanStep clean original replacement s = some s') :
    s.searchIndex < clean.length ∧
    ∃ index, indexOfFrom clean replacement s.searchIndex = some index ∧
      (((index, index + replacement.length) ∈ s.processed ∧
          s' = { s with searchIndex := index + 1 }) ∨
       ((index, index + replacement.length) ∉ s.processed ∧
          s' = { searchIndex := index + replacement.length,
                 processed := (index, index + replacement.length) :: s.processed,
                 acc := s.acc ++ [acceptedMatch original replacement index] })) := by
  unfold scanStep at h
  split at h
  · refine ⟨by assumption, ?_⟩
    cases hidx : indexOfFrom clean replacement s.searchIndex with
    | none => rw [hidx] at h; cases h
    | some index =>
      rw [hidx] at h
      simp only at h
      refine ⟨index, rfl, ?_⟩
      by_cases hk : (index, index + replacement.length) ∈ s.processed
      · rw [if_pos hk] at h
        cases h
        exact Or.inl ⟨hk, rfl⟩
      · rw [if_neg hk] at h
        cases h
        exact Or.inr ⟨hk, rfl⟩
  · cases h

/-- The loop measure: twice the remaining text plus one extra credit when the
range starting at the cursor is still unclaimed. -/
def scanMeasure (clean replacement : List Char) (s : ScanSt) : Nat :=
  2 * (clean.length - s.searchIndex) +
    (if (s.searchIndex, s.searchIndex + replacement.length) ∈ s.processed then 0 else 1)

theorem scanStep_measure_lt {clean original replacement : List Char} {s s' : ScanSt}
    (h : scanStep clean original replacement s = some s') :
    scanMeasure clean replacement s' < scanMeasure clean replacement s := by
  obtain ⟨hlt, index, hidx, hcase⟩ := scanStep_cases h
  have hge : s.searchIndex ≤ index := indexOfFrom_ge hidx
  have hfit : index < clean.length := indexOfFrom_lt hidx hlt
  rcases hcase with ⟨hk, rfl⟩ | ⟨hk, rfl⟩
  · -- already-claimed range: cursor moves to `index + 1`
    unfold scanMeasure
    have h1 : (if (index + 1, index + 1 + replacement.length) ∈ s.processed
        then 0 else 1) ≤ 1 := by split <;> omega
    have h0 : 0 ≤ (if (s.searchIndex, s.searchIndex + replacement.length) ∈ s.processed
        then 0 else 1) := Nat.zero_le _
    simp only
    omega
  · -- accepted occurrence
    cases hrep : replacement with
    | nil =>
      -- the empty token: the cursor stays put, but the range becomes claimed
      subst hrep
      rw [indexOfFrom_nil_needle] at hidx
      cases hidx
      unfold scanMeasure
      simp only [List.length_nil, Nat.add_zero] at hk ⊢
      rw [if_neg hk, if_pos (List.mem_cons_self _ _)]
      omega
    | cons c cs =>
      have hlen : 1 ≤ replacement.length := by rw [hrep]; simp
      have hfit2 : index + replacement.length ≤ clean.length :=
        indexOfFrom_add_length_le hidx (Nat.le_of_lt hlt)
      unfold scanMeasure
      rw [← hrep]
      have h1 : (if (index + replacement.length,
          index + replacement.length + replacement.length) ∈
            ((index, index + replacement.length) :: s.processed) then 0 else 1) ≤ 1 := by
        split <;> omega
      have h0 : 0 ≤ (if (s.searchIndex, s.searchIndex + replacement.length) ∈ s.processed
          then 0 else 1) := Nat.zero_le _
      simp only
      omega

/-- With the measure as fuel budget, the loop always reaches a state on which
`scanStep` reports loop exit. -/
theorem scanLoop_fixpoint {clean original replacement : List Char} :
    ∀ (fuel : Nat) (s : ScanSt), scanMeasure clean replacement s ≤ fuel →
      scanStep clean original replacement
        (scanLoop clean original replacement fuel s) = none := by
  intro fuel
  induction fuel with
  | zero =>
    intro s hs
    have : ¬ s.searchIndex < clean.length := by
      unfold scanMeasure at hs
      intro hlt
      have : 1 ≤ clean.length - s.searchIndex := by omega
      have h0 : 0 ≤ (if (s.searchIndex, s.searchIndex + replacement.length) ∈ s.processed
          then 0 else 1) := Nat.zero_le _
      omega
    simp [scanLoop, scanStep, this]
  | succ fuel ih =>
    intro s hs
    simp only [scanLoop]
    cases h : scanStep clean original replacement s with
    | none => exact h
    | some s' =>
      exact ih s' (by have := scanStep_measure_lt h; omega)

theorem scanMeasure_le {clean replacement : List Char} (s : ScanSt) :
    scanMeasure clean replacement s ≤ 2 * clean.length + 2 := by
  unfold scanMeasure
  have h1 : (if (s.searchIndex, s.searchIndex + replacement.length) ∈ s.processed
      then 0 else 1) ≤ 1 := by split <;> omega
  have h2 : clean.length - s.searchIndex ≤ clean.length := Nat.sub_le _ _
  omega

theorem scanStep_mono {clean original replacement : List Char} {s s' : ScanSt}
    (h : scanStep clean original replacement s = some s') :
    s.searchIndex ≤ s'.searchIndex := by
  obtain ⟨_, index, hidx, hcase⟩ := scanStep_cases h
  have hge := indexOfFrom_ge hidx
  rcases hcase with ⟨_, rfl⟩ | ⟨_, rfl⟩ <;> simp <;> omega

/-- The `(start, end)` key of a span, i.e. the `processedPositions` key. -/
def spanKey (m : PIIMatch) : Nat × Nat := (m.start, m.endPos)

/-- Invariant of the Mode-A state: accumulated spans have pairwise-distinct
keys, and every accumulated key has been recorded in `processedPositions`. -/
def ScanInv (s : ScanSt) : Prop :=
  (s.acc.map spanKey).Nodup ∧ ∀ m ∈ s.acc, spanKey m ∈ s.processed

theorem scanStep_inv {clean original replacement : List Char} {s s' : ScanSt}
    (h : scanStep clean original replacement s = some s') (hs : ScanInv s) :
    ScanInv s' := by
  obtain ⟨hnd, hsub⟩ := hs
  obtain ⟨_, index, hidx, hcase⟩ := scanStep_cases h
  rcases hcase with ⟨hk, rfl⟩ | ⟨hk, rfl⟩
  · exact ⟨hnd, hsub⟩
  · constructor
    · simp only [List.map_append, List.map_cons, List.map_nil]
      rw [List.nodup_append]
      refine ⟨hnd, List.nodup_singleton _, ?_⟩
      intro a ha hb
      simp only [List.mem_map] at ha
      obtain ⟨m, hm, rfl⟩ := ha
      simp only [List.mem_singleton] at hb
      have : spanKey m ∈ s.processed := hsub m hm
      rw [hb] at this
      exact hk this
    · intro m hm
      simp only [List.mem_append, List.mem_singleton] at hm
      rcases hm with hm | rfl
      · exact List.mem_cons_of_mem _ (hsub m hm)
      · exact List.mem_cons_self _ _

theorem scanLoop_inv {clean original replacement : List Char} :
    ∀ (fuel : Nat) (s : ScanSt), ScanInv s →
      ScanInv (scanLoop clean original replacement fuel s) := by
  intro fuel
  induction fuel with
  | zero => intro s hs; exact hs
  | succ fuel ih =>
    intro s hs
    simp only [scanLoop]
    cases h : scanStep clean original replacement s with
    | none => exact hs
    | some s' => exact ih s' (scanStep_inv h hs)

/-- The per-span positivity invariant of the Mode-A state, under nonempty
replacement tokens. -/
def AccPos (s : ScanSt) : Prop := ∀ m ∈ s.acc, m.start < m.endPos

theorem scanStep_accPos {clean original replacement : List Char} {s s' : ScanSt}
    (hrep : replacement ≠ []) (h : scanStep clean original replacement s = some s')
    (hs : AccPos s) : AccPos s' := by
  obtain ⟨_, index, hidx, hcase⟩ := scanStep_cases h
  rcases hcase with ⟨_, rfl⟩ | ⟨_, rfl⟩
  · exact hs
  · intro m hm
    simp only [List.mem_append, List.mem_singleton] at hm
    rcases hm with hm | rfl
    · exact hs m hm
    · have : 1 ≤ replacement.length := by
        cases replacement with
        | nil => exact absurd rfl hrep
        | cons c cs => simp
      simp only [acceptedMatch]
      omega

theorem scanLoop_accPos {clean original replacement : List Char}
    (hrep : replacement ≠ []) :
    ∀ (fuel : Nat) (s : ScanSt), AccPos s →
      AccPos (scanLoop clean original replacement fuel s) := by
  intro fuel
  induction fuel with
  | zero => intro s hs; exact hs
  | succ fuel ih =>
    intro s hs
    simp only [scanLoop]
    cases h : scanStep clean original replacement s with
    | none => exact hs
    | some s' => exact ih s' (scanStep_accPos hrep h hs)

/-! Analysis of the Mode-B tag scan. -/

theorem tryTag_sound {t : List Char} {i : Nat} {lab : List Char}
    (h : tryTag t i = some lab) :
    lab ≠ [] ∧ (∀ c ∈ lab, isTagChar c = true) ∧
      slice t i (i + lab.length + 2) = '<' :: (lab ++ ['>']) ∧
      i + lab.length + 2 ≤ t.length := by
  unfold tryTag at h
  split at h
  case h_2 => cases h
  case h_1 x rest heq =>
    simp only at h
    split at h
    case isFalse => cases h
    case isTrue hcond =>
      cases h
      simp only [Bool.and_eq_true, Bool.not_eq_true', beq_iff_eq,
        List.head?_eq_some_iff] at hcond
      obtain ⟨hne0, ds, hds⟩ := hcond
      have hne : rest.takeWhile isTagChar ≠ [] := by
        intro hl
        rw [hl] at hne0
        simp [List.isEmpty] at hne0
      set lab := rest.takeWhile isTagChar with hlab
      have htw : ∀ c ∈ lab, isTagChar c = true := fun c hc => List.mem_takeWhile_imp hc
      have hpre : lab <+: rest := List.takeWhile_prefix _
      have hrest : rest = lab ++ '>' :: ds := by
        conv_lhs => rw [← List.take_append_drop lab.length rest, hds]
        rw [← List.prefix_iff_eq_take.mp hpre]
      have hdrop : t.drop i = '<' :: (lab ++ '>' :: ds) := by rw [heq, hrest]
      refine ⟨hne, htw, ?_, ?_⟩
      · unfold slice
        rw [List.drop_take]
        have h2 : i + lab.length + 2 - i = lab.length + 1 + 1 := by omega
        rw [h2, hdrop, List.take_succ_cons, List.take_append_eq_append_take,
          List.take_of_length_le (by omega), Nat.add_sub_cancel_left]
        simp
      · have := congrArg List.length hdrop
        simp only [List.length_drop, List.length_cons, List.length_append] at this
        omega

/-- Every entry the Mode-B scan emits starts at or after the scan offset,
corresponds to a successful tag match, and entries appear in strictly
increasing start order. -/
theorem tagScanAux_sound (t : List Char) :
    ∀ (b i : Nat),
      (∀ p ∈ tagScanAux t b i, i ≤ p.1 ∧ tryTag t p.1 = some p.2) ∧
      (tagScanAux t b i).Pairwise (fun p q => p.1 < q.1) := by
  intro b
  induction b with
  | zero => intro i; simp [tagScanAux]
  | succ b ih =>
    intro i
    simp only [tagScanAux]
    split
    · cases htag : tryTag t i with
      | some lab =>
        obtain ⟨ihmem, ihpw⟩ := ih (i + lab.length + 2)
        constructor
        · intro p hp
          simp only [List.mem_cons] at hp
          rcases hp with rfl | hp
          · exact ⟨Nat.le_refl _, htag⟩
          · exact ⟨by have := (ihmem p hp).1; omega, (ihmem p hp).2⟩
        · refine List.Pairwise.cons ?_ ihpw
          intro q hq
          have := (ihmem q hq).1
          omega
      | none =>
        obtain ⟨ihmem, ihpw⟩ := ih (i + 1)
        refine ⟨fun p hp => ⟨by have := (ihmem p hp).1; omega, (ihmem p hp).2⟩, ihpw⟩
    · simp

theorem tagScan_sound (t : List Char) :
    (∀ p ∈ tagScan t, tryTag t p.1 = some p.2) ∧
      (tagScan t).Pairwise (fun p q => p.1 < q.1) :=
  ⟨fun p hp => ((tagScanAux_sound t (t.length + 1) 0).1 p hp).2,
   (tagScanAux_sound t (t.length + 1) 0).2⟩

/-! Coverage of the segmenter. -/

theorem slice_append_drop {l : List Char} {a b : Nat} (hab : a ≤ b)
    (hb : b ≤ l.length) : slice l a b ++ l.drop b = l.drop a := by
  unfold slice
  conv_rhs => rw [← List.take_append_drop b l]
  rw [List.drop_append_eq_append_drop]
  have : a - (l.take b).length = 0 := by
    simp only [List.length_take]
    omega
  rw [this, List.drop_zero]

theorem segmentsLoop_consumed {text : List Char} :
    ∀ {ms : List PIIMatch} {lastIndex : Nat},
      spansOK text lastIndex ms = true →
      ((segmentsLoop text lastIndex ms).map (consumedChars text)).flatten =
        text.drop lastIndex := by
  intro ms
  induction ms with
  | nil =>
    intro lastIndex _
    simp only [segmentsLoop]
    split
    · simp only [List.map_cons, List.map_nil, List.flatten_cons, List.flatten_nil,
        List.append_nil, consumedChars]
      unfold slice
      rw [List.take_length]
    · simp only [List.map_nil, List.flatten_nil]
      rw [List.drop_eq_nil_of_le (by omega)]
  | cons m ms ih =>
    intro lastIndex h
    simp only [spansOK, Bool.and_eq_true, decide_eq_true_eq] at h
    obtain ⟨⟨⟨h1, h2⟩, h3⟩, h4⟩ := h
    have hstart_le : m.start ≤ text.length := Nat.le_trans h2 h3
    by_cases hgap : lastIndex < m.start
    · simp only [segmentsLoop, if_pos hgap, List.cons_append, List.nil_append,
        List.map_cons, List.flatten_cons, consumedChars]
      rw [ih h4, slice_append_drop h2 h3]
      exact slice_append_drop (Nat.le_of_lt hgap) hstart_le
    · simp only [segmentsLoop, if_neg hgap, List.nil_append, List.map_cons,
        List.flatten_cons, consumedChars]
      rw [ih h4, slice_append_drop h2 h3]
      rw [Nat.le_antisymm h1 (Nat.le_of_not_lt hgap)]

theorem redactedTextSegments_consumed {text : List Char} {ms : List PIIMatch}
    (h : spansOK text 0 ms = true) :
    ((redactedTextSegments text ms).map (consumedChars text)).flatten = text := by
  unfold redactedTextSegments
  by_cases ht : text.isEmpty
  · rw [if_pos ht]
    rw [List.isEmpty_iff.mp ht]
    rfl
  · rw [if_neg ht]
    by_cases hm : ms.isEmpty
    · rw [if_pos hm]
      simp [consumedChars]
    · rw [if_neg hm]
      rw [segmentsLoop_consumed h, List.drop_zero]

/-! Unfolding equations for the two reconciler modes. -/

theorem convert_nil_map (originalText cleanText : List Char)
    (items : List (List Char)) :
    convertBackendResponseToMatches originalText cleanText items [] =
      dedupAdj (sortByStart ((tagScan cleanText).map (fun p =>
        ⟨normalizeEntityType p.2, '[' :: (p.2 ++ [']']), '<' :: (p.2 ++ ['>']),
         p.1, p.1 + p.2.length + 2⟩))) := rfl

theorem convert_cons_map (originalText cleanText : List Char)
    (items : List (List Char)) (q : List Char × List Char)
    (qs : List (List Char × List Char)) :
    convertBackendResponseToMatches originalText cleanText items (q :: qs) =
      dedupAdj (sortByStart
        (((q :: qs).foldl (fun st p =>
            scanLoop cleanText p.1 p.2 (2 * cleanText.length + 2)
              { st with searchIndex := 0 }) ⟨0, [], []⟩).acc)) := rfl

theorem foldl_scanLoop_inv (cleanText : List Char) :
    ∀ (entries : List (List Char × List Char)) (st : ScanSt), ScanInv st →
      ScanInv (entries.foldl (fun st p =>
        scanLoop cleanText p.1 p.2 (2 * cleanText.length + 2)
          { st with searchIndex := 0 }) st) := by
  intro entries
  induction entries with
  | nil => intro st h; exact h
  | cons p ps ih =>
    intro st h
    simp only [List.foldl_cons]
    exact ih _ (scanLoop_inv _ _ h)

theorem foldl_scanLoop_accPos (cleanText : List Char) :
    ∀ (entries : List (List Char × List Char)),
      (∀ p ∈ entries, p.2 ≠ ([] : List Char)) →
      ∀ st : ScanSt, AccPos st →
        AccPos (entries.foldl (fun st p =>
          scanLoop cleanText p.1 p.2 (2 * cleanText.length + 2)
            { st with searchIndex := 0 }) st) := by
  intro entries
  induction entries with
  | nil => intro _ st h; exact h
  | cons p ps ih =>
    intro hne st h
    simp only [List.foldl_cons]
    exact ih (fun q hq => hne q (List.mem_cons_of_mem _ hq)) _
      (scanLoop_accPos (hne p (List.mem_cons_self _ _)) _ _ h)

/-! The claims. -/

/-- Claim C1: for the substitution map `{"John Doe": "<PERSON>"}` and
substituted text `"Contact <PERSON> now"`, the reconciler returns exactly one
span, `{entityType: "PERSON", originalValue: "John Doe",
replacementValue: "<PERSON>", start: 8, end: 16}`. -/
theorem c1_reconcile_person_example :
    convertBackendResponseToMatches ("Contact John Doe now".toList)
      ("Contact <PERSON> now".toList) []
      [(("John Doe".toList), ("<PERSON>".toList))] =
    [⟨("PERSON".toList), ("John Doe".toList), ("<PERSON>".toList), 8, 16⟩] := by
  decide

/-- Claim C2: with an absent/empty substitution map the reconciler runs in
tag-driven Mode B: every returned span comes from a bracketed-tag occurrence
`<LABEL>` of the substituted text, with `entityType` the normalized label,
`originalValue` the label re-bracketed as `[LABEL]`, `replacementValue` the
matched tag text (exactly the characters of `[start, end)`); and
`"<EMAIL> sent <PHONE_NUMBER>"` yields the two spans with normalized types
`EMAIL` and `PHONE` in left-to-right order. -/
theorem c2_mode_b_tag_driven :
    (∀ originalText cleanText : List Char, ∀ items : List (List Char),
      ∀ m ∈ convertBackendResponseToMatches originalText cleanText items [],
        ∃ lab : List Char, lab ≠ [] ∧
          m.type = normalizeEntityType lab ∧
          m.original = '[' :: (lab ++ [']']) ∧
          m.replacement = '<' :: (lab ++ ['>']) ∧
          m.replacement = slice cleanText m.start m.endPos ∧
          m.endPos = m.start + lab.length + 2) ∧
    convertBackendResponseToMatches [] ("<EMAIL> sent <PHONE_NUMBER>".toList) [] [] =
      [⟨("EMAIL".toList), ("[EMAIL]".toList), ("<EMAIL>".toList), 0, 7⟩,
       ⟨("PHONE".toList), ("[PHONE_NUMBER]".toList), ("<PHONE_NUMBER>".toList), 13, 27⟩] := by
  constructor
  · intro ot ct items m hm
    rw [convert_nil_map] at hm
    have hm' := mem_of_mem_dedup_sort hm
    simp only [List.mem_map] at hm'
    obtain ⟨p, hp, rfl⟩ := hm'
    obtain ⟨hne, _, hslice, _⟩ := tryTag_sound ((tagScan_sound ct).1 p hp)
    exact ⟨p.2, hne, rfl, rfl, rfl, hslice.symm, rfl⟩
  · decide

/-- Witness for C2's universal part, at the first span of the Mode-B
example. -/
theorem c2_mode_b_tag_driven_witness :
    ∃ lab : List Char, lab ≠ [] ∧
      (⟨("EMAIL".toList), ("[EMAIL]".toList), ("<EMAIL>".toList), 0, 7⟩ : PIIMatch).type =
        normalizeEntityType lab ∧
      (⟨("EMAIL".toList), ("[EMAIL]".toList), ("<EMAIL>".toList), 0, 7⟩ : PIIMatch).original =
        '[' :: (lab ++ [']']) ∧
      (⟨("EMAIL".toList), ("[EMAIL]".toList), ("<EMAIL>".toList), 0, 7⟩ : PIIMatch).replacement =
        '<' :: (lab ++ ['>']) ∧
      (⟨("EMAIL".toList), ("[EMAIL]".toList), ("<EMAIL>".toList), 0, 7⟩ : PIIMatch).replacement =
        slice ("<EMAIL> sent <PHONE_NUMBER>".toList)
          (⟨("EMAIL".toList), ("[EMAIL]".toList), ("<EMAIL>".toList), 0, 7⟩ : PIIMatch).start
          (⟨("EMAIL".toList), ("[EMAIL]".toList), ("<EMAIL>".toList), 0, 7⟩ : PIIMatch).endPos ∧
      (⟨("EMAIL".toList), ("[EMAIL]".toList), ("<EMAIL>".toList), 0, 7⟩ : PIIMatch).endPos =
        (⟨("EMAIL".toList), ("[EMAIL]".toList), ("<EMAIL>".toList), 0, 7⟩ : PIIMatch).start +
          lab.length + 2 :=
  c2_mode_b_tag_driven.1 [] ("<EMAIL> sent <PHONE_NUMBER>".toList) [] _ (by decide)

/-- Claim C3: the local detector's output and the reconciler's output are
sorted by `start` ascending (every consecutive pair is in order). -/
theorem c3_outputs_sorted_by_start :
    (∀ text : List Char,
      (detectPII text).Chain' (fun a b => a.start ≤ b.start)) ∧
    (∀ originalText cleanText : List Char, ∀ items : List (List Char),
      ∀ syntheticMap : List (List Char × List Char),
      (convertBackendResponseToMatches originalText cleanText items
        syntheticMap).Chain' (fun a b => a.start ≤ b.start)) := by
  constructor
  · intro text
    exact (sortByStart_pairwise _).chain'
  · intro ot ct items sm
    cases sm with
    | nil =>
      rw [convert_nil_map]
      exact (List.Pairwise.sublist (dedupAdj_sublist _) (sortByStart_pairwise _)).chain'
    | cons q qs =>
      rw [convert_cons_map]
      exact (List.Pairwise.sublist (dedupAdj_sublist _) (sortByStart_pairwise _)).chain'

/-- Counterexample to claim C4 as stated: with the substitution map
`{"x": ""}` (an empty replacement token) and substituted text `"a"`, the
reconciler emits a zero-width span (`start = end = 0`), violating
`start < end`. -/
theorem c4_counterexample_empty_token :
    ∃ m ∈ convertBackendResponseToMatches ("x".toList) ("a".toList) []
        [(("x".toList), ([] : List Char))], ¬ m.start < m.endPos := by
  decide

/-- Claim C4 as amended: every span emitted by `detectPII` satisfies
`start < end` (hence `0 ≤ start < end`), and every span emitted by the
reconciler satisfies it provided every replacement token of the substitution
map is nonempty (tag-driven Mode B needs no such proviso). -/
theorem c4_amended_span_invariant :
    (∀ text : List Char, ∀ m ∈ detectPII text, m.start < m.endPos) ∧
    (∀ originalText cleanText : List Char, ∀ items : List (List Char),
      ∀ syntheticMap : List (List Char × List Char),
      (∀ p ∈ syntheticMap, p.2 ≠ ([] : List Char)) →
      ∀ m ∈ convertBackendResponseToMatches originalText cleanText items
          syntheticMap,
        m.start < m.endPos) := by
  constructor
  · intro text m hm
    unfold detectPII at hm
    have hm' := (sortByStart_perm _).mem_iff.mp hm
    simp only [List.mem_flatMap, List.mem_map] at hm'
    obtain ⟨pat, hpat, ij, hij, rfl⟩ := hm'
    obtain ⟨i, j⟩ := ij
    have h1 := reRun_minLen_le (execAll_sound hij)
    have h2 := catalog_minLen_pos pat hpat
    simp only
    omega
  · intro ot ct items sm hsm m hm
    cases sm with
    | nil =>
      rw [convert_nil_map] at hm
      have hm' := mem_of_mem_dedup_sort hm
      simp only [List.mem_map] at hm'
      obtain ⟨p, hp, rfl⟩ := hm'
      simp only
      omega
    | cons q qs =>
      rw [convert_cons_map] at hm
      have hm' := mem_of_mem_dedup_sort hm
      exact foldl_scanLoop_accPos ct (q :: qs) hsm _ (by intro m hm0; cases hm0) m hm'

/-- Witness for C4's amended statement at the C1 input. -/
theorem c4_amended_span_invariant_witness :
    (∀ p ∈ [(("John Doe".toList), ("<PERSON>".toList))], p.2 ≠ ([] : List Char)) ∧
      ∀ m ∈ convertBackendResponseToMatches ("Contact John Doe now".toList)
          ("Contact <PERSON> now".toList) []
          [(("John Doe".toList), ("<PERSON>".toList))],
        m.start < m.endPos :=
  ⟨by decide,
   c4_amended_span_invariant.2 _ _ _ _ (by decide)⟩

/-- Claim C5: under the Segmenter's precondition (sorted, pairwise
non-overlapping, in-bounds spans), the segments of `RedactedText` consume the
text exactly: concatenating each segment's consumed characters reconstructs
the whole text, with no gaps or repeats. -/
theorem c5_segmenter_exact_coverage (text : List Char) (ms : List PIIMatch)
    (h : spansOK text 0 ms = true) :
    ((redactedTextSegments text ms).map (consumedChars text)).flatten = text :=
  redactedTextSegments_consumed h

/-- Witness for C5 at the C1 example text and span. -/
theorem c5_segmenter_exact_coverage_witness :
    spansOK ("Contact <PERSON> now".toList) 0
        [⟨("PERSON".toList), ("John Doe".toList), ("<PERSON>".toList), 8, 16⟩] = true ∧
    ((redactedTextSegments ("Contact <PERSON> now".toList)
        [⟨("PERSON".toList), ("John Doe".toList), ("<PERSON>".toList), 8, 16⟩]).map
      (consumedChars ("Contact <PERSON> now".toList))).flatten =
      ("Contact <PERSON> now".toList) :=
  ⟨by decide, c5_segmenter_exact_coverage _ _ (by decide)⟩

/-- Claim C6: the fallback classifier evaluates its shape predicates in the
fixed priority order (email, SSN, credit card, phone, credential prefix,
IP, person); in particular the three spec examples hold, and the extra
conjuncts witness the priority order (an `@` wins over the dotted-quad
shape; the national-id shape wins over the phone shape; the 16-digit shape
wins over the phone shape). -/
theorem c6_infer_priority_chain :
    inferEntityType ("192.168.1.1".toList) = ("IP".toList) ∧
    inferEntityType ("jane@x.com".toList) = ("EMAIL".toList) ∧
    inferEntityType ("Jane Smith".toList) = ("PERSON".toList) ∧
    inferEntityType ("1@2.3.4.5".toList) = ("EMAIL".toList) ∧
    inferEntityType ("123-45-6789".toList) = ("SSN".toList) ∧
    inferEntityType ("4532-1234-5678-9012".toList) = ("CREDIT_CARD".toList) ∧
    inferEntityType ("12345678901234567890".toList) = ("PHONE".toList) ∧
    inferEntityType ("sk-0".toList) = ("API_KEY".toList) := by
  decide

/-- Claim C7: the entity-label normalizer (a total function by construction)
maps `US_SSN` to `SSN`, `IP_ADDRESS` to `IP`, and passes through any label
matching no rewrite rule, such as `UNKNOWN_TAG`. -/
theorem c7_normalize_examples :
    normalizeEntityType ("US_SSN".toList) = ("SSN".toList) ∧
    normalizeEntityType ("IP_ADDRESS".toList) = ("IP".toList) ∧
    normalizeEntityType ("UNKNOWN_TAG".toList) = ("UNKNOWN_TAG".toList) := by
  decide

/-- Claim C8: a failed or rate-limited audit outcome changes only the audit
status and audit result fields of the submission state; the sanitized text,
span list, input, history (and the other sanitize-produced fields) are
untouched. -/
theorem c8_audit_failure_preserves_sanitized_state (s : ShieldChatState)
    (msg : List Char) :
    (applyAuditFailure msg s).sanitizedText = s.sanitizedText ∧
    (applyAuditFailure msg s).currentMatches = s.currentMatches ∧
    (applyAuditFailure msg s).input = s.input ∧
    (applyAuditFailure msg s).history = s.history ∧
    (applyAuditFailure msg s).isScanning = s.isScanning ∧
    (applyAuditFailure msg s).apiError = s.apiError ∧
    (applyAuditFailure msg s).processingTime = s.processingTime ∧
    ((applyAuditFailure msg s).auditStatus = AuditStatus.rate_limited ∨
      (applyAuditFailure msg s).auditStatus = AuditStatus.failed) ∧
    (applyAuditFailure msg s).auditResult = none := by
  refine ⟨rfl, rfl, rfl, rfl, rfl, rfl, rfl, ?_, rfl⟩
  by_cases h : isRateLimitedMsg msg
  · left
    simp [applyAuditFailure, h]
  · right
    simp [applyAuditFailure, h]

/-- Claim C9: the Mode-A scan loop terminates.  Across any two consecutive
successful iterations the search index strictly increases (a claimed range
advances it by one, an accepted occurrence advances it past the occurrence's
end), and the loop run with fuel `2 * length + 2` always reaches the exit
condition from any state. -/
theorem c9_mode_a_scan_terminates :
    (∀ clean original replacement : List Char, ∀ s s1 s2 : ScanSt,
      scanStep clean original replacement s = some s1 →
      scanStep clean original replacement s1 = some s2 →
      s.searchIndex < s2.searchIndex) ∧
    (∀ clean original replacement : List Char, ∀ s : ScanSt,
      scanStep clean original replacement
        (scanLoop clean original replacement (2 * clean.length + 2) s) = none) := by
  constructor
  · intro clean original replacement s s1 s2 h1 h2
    obtain ⟨hlt, index, hidx, hcase⟩ := scanStep_cases h1
    have hge := indexOfFrom_ge hidx
    rcases hcase with ⟨hk, rfl⟩ | ⟨hk, rfl⟩
    · have hmono := scanStep_mono h2
      simp only at hmono ⊢
      omega
    · cases hrepl : replacement with
      | cons c cs =>
        have hmono := scanStep_mono h2
        have hlen : 1 ≤ replacement.length := by rw [hrepl]; simp
        simp only at hmono ⊢
        omega
      | nil =>
        subst hrepl
        rw [indexOfFrom_nil_needle] at hidx
        cases hidx
        obtain ⟨hlt2, index2, hidx2, hcase2⟩ := scanStep_cases h2
        rw [indexOfFrom_nil_needle] at hidx2
        cases hidx2
        rcases hcase2 with ⟨hk2, rfl⟩ | ⟨hk2, rfl⟩
        · simp only at hlt2 ⊢
          simp only [List.length_nil, Nat.add_zero] at hk2 ⊢
          omega
        · exfalso
          apply hk2
          simp only [List.length_nil, Nat.add_zero, List.mem_cons]
          left
          trivial
  · intro clean original replacement s
    exact scanLoop_fixpoint _ s (Nat.le_trans (scanMeasure_le s) (Nat.le_refl _))

/-- Witness for C9's two-step strict increase, at `clean = "aa"`,
`replacement = "a"`, starting from the initial state. -/
theorem c9_mode_a_scan_terminates_witness :
    (ScanSt.mk 0 [] []).searchIndex <
      (ScanSt.mk 2 [(1, 2), (0, 1)]
        [acceptedMatch ("x".toList) ("a".toList) 0,
         acceptedMatch ("x".toList) ("a".toList) 1]).searchIndex :=
  c9_mode_a_scan_terminates.1 ("aa".toList) ("x".toList) ("a".toList) _ _ _ rfl rfl

/-- Claim C10: the `(start, end)` pairs of the reconciler's output are
globally pairwise distinct: in Mode A the `processedPositions` set skips any
exactly-repeated range, and in Mode B the global tag scan yields disjoint
matches. -/
theorem c10_span_keys_pairwise_distinct :
    ∀ originalText cleanText : List Char, ∀ items : List (List Char),
      ∀ syntheticMap : List (List Char × List Char),
      (convertBackendResponseToMatches originalText cleanText items
        syntheticMap).Pairwise
        (fun a b => ¬ (a.start = b.start ∧ a.endPos = b.endPos)) := by
  intro ot ct items sm
  have hsymm : ∀ {a b : PIIMatch},
      (¬ (a.start = b.start ∧ a.endPos = b.endPos)) →
      ¬ (b.start = a.start ∧ b.endPos = a.endPos) :=
    fun h hc => h ⟨hc.1.symm, hc.2.symm⟩
  have key_step : ∀ {l : List PIIMatch},
      l.Pairwise (fun a b => ¬ (a.start = b.start ∧ a.endPos = b.endPos)) →
      (dedupAdj (sortByStart l)).Pairwise
        (fun a b => ¬ (a.start = b.start ∧ a.endPos = b.endPos)) := by
    intro l hl
    refine List.Pairwise.sublist (dedupAdj_sublist _) ?_
    exact ((sortByStart_perm l).pairwise_iff hsymm).mpr hl
  cases sm with
  | nil =>
    rw [convert_nil_map]
    refine key_step ?_
    refine List.Pairwise.map _ ?_ (tagScan_sound ct).2
    intro p q hpq hc
    exact absurd hc.1 (Nat.ne_of_lt hpq)
  | cons q qs =>
    rw [convert_cons_map]
    refine key_step ?_
    have hinv := foldl_scanLoop_inv ct (q :: qs) ⟨0, [], []⟩
      ⟨List.Pairwise.nil, by intro m hm; cases hm⟩
    have hnd := hinv.1
    have hpw : (((q :: qs).foldl (fun st p =>
        scanLoop ct p.1 p.2 (2 * ct.length + 2)
          { st with searchIndex := 0 }) ⟨0, [], []⟩).acc).Pairwise
        (fun a b => spanKey a ≠ spanKey b) := List.pairwise_map.mp hnd
    refine hpw.imp ?_
    intro a b hne hc
    apply hne
    simp [spanKey, hc.1, hc.2]

end ShieldChat
